import Mathlib

/-!
Shallow embedding of the CIEBII library (`ciebii_lib`): the checksum
function, RGB/Chunk/Header records with their byte encodings and fallible
decoders, and the `CIEBIIFILE` container with its constructors, mutators
and the byte-level decoder.

Bytes are modelled as `Nat` values (the `u8` domain is `< 256`); machine
arithmetic wraps explicitly with `% 65536` (u16) and `% 256` (u8).
Fallible Rust functions return `Except ChunkError _`; the container
decoder additionally returns `Option` where `none` models the fatal panic
of an out-of-range slice index.
-/

/-- One iteration state update of `checksum` in `ciebii_lib/src/checksum.rs`:
`new_byte = b ^ prev`; `total += new_byte as u16` (16-bit wraparound);
`prev = new_byte - (total << 8) as u8` (8-bit wraparound subtraction,
where `(total << 8) as u8` truncates the 16-bit shifted value to 8 bits). -/
def checksumLoop (total prev : Nat) : List Nat → Nat
  | [] => total
  | b :: rest =>
    let new_byte := b ^^^ prev
    let total2 := (total + new_byte) % 65536
    let prev2 := (new_byte + (256 - ((total2 <<< 8) % 65536) % 256)) % 256
    checksumLoop total2 prev2 rest

/-- `checksum(data)` from `ciebii_lib/src/checksum.rs`: accumulator starts
at 0, previous byte starts at `0xAB`. -/
def checksum (data : List Nat) : Nat :=
  checksumLoop 0 0xAB data

/-- The free function `checksum`, under a name that the `checksum` record
fields of `Chunk` and `Header` cannot shadow inside their namespaces. -/
def checksum' : List Nat → Nat := checksum

/-- Big-endian byte encoding of `n` on `w` bytes (`to_be_bytes` of a
`w`-byte unsigned integer, truncating `n` to `2^(8*w)`). -/
def toBeBytes : Nat → Nat → List Nat
  | 0, _ => []
  | w + 1, n => toBeBytes w (n / 256) ++ [n % 256]

/-- Big-endian byte decoding (`from_be_bytes`). -/
def fromBeBytes (l : List Nat) : Nat :=
  l.foldl (fun a b => a * 256 + b) 0

/-- Models `slice.try_into()` for a fixed-size array of `w` bytes followed
by `from_be_bytes`: `none` models the `TryFromSliceError` raised when the
slice length is not exactly `w`. -/
def fromBeBytesSized (w : Nat) (l : List Nat) : Option Nat :=
  if l.length = w then some (fromBeBytes l) else none

/-- `RGB` from `ciebii_lib/src/rgb.rs`. -/
structure RGB where
  r : Nat
  g : Nat
  b : Nat
  deriving DecidableEq, Repr

/-- `RGB::new`. -/
def RGB.new (r g b : Nat) : RGB := ⟨r, g, b⟩

/-- `RGB::as_bytes`: the three color bytes in order. -/
def RGB.as_bytes (c : RGB) : List Nat := [c.r, c.g, c.b]

/-- `ChunkError` from `shitfile_lib/src/error.rs`. -/
inductive ChunkError where
  | InvalidLen
  | ChecksumFail
  | IllegalHeader
  | NonExistentChunk
  | DimensionMismatch
  | ByteParseFail
  deriving DecidableEq, Repr

/-- `Chunk` from `ciebii_lib/src/chunk.rs`. -/
structure Chunk where
  rgb : RGB
  checksum : Nat
  deriving DecidableEq, Repr

/-- `Chunk::new`. -/
def Chunk.new (r g b : Nat) : Chunk :=
  let rgb := RGB.new r g b
  { rgb := rgb, checksum := checksum' rgb.as_bytes }

/-- `Chunk::as_bytes`: RGB bytes followed by the checksum as 2 big-endian
bytes (`u16::to_be_bytes`). -/
def Chunk.as_bytes (c : Chunk) : List Nat :=
  c.rgb.as_bytes ++ toBeBytes 2 c.checksum

/-- `impl TryFrom<&[u8]> for Chunk`: requires exactly 5 bytes, splits into
RGB and stored checksum, recomputes the checksum over the RGB bytes, and
compares `(check[0] as u16) << 8 | check[1] as u16` against it. -/
def Chunk.tryFrom (bytes : List Nat) : Except ChunkError Chunk :=
  if bytes.length ≠ 5 then .error .InvalidLen
  else
    let rgbBytes := bytes.take 3
    let check := bytes.drop 3
    let new_checksum := checksum' rgbBytes
    let rgb := RGB.new (bytes.getD 0 0) (bytes.getD 1 0) (bytes.getD 2 0)
    let original_checksum := (check.getD 0 0 <<< 8) ||| check.getD 1 0
    if original_checksum ≠ new_checksum then .error .ChecksumFail
    else .ok { rgb := rgb, checksum := new_checksum }

/-- `CIEBIIFILE::MAGIC_BYTES`, spelling "CIEBIIFILE". -/
def CIEBIIFILE.MAGIC_BYTES : List Nat :=
  [67, 73, 69, 66, 73, 73, 70, 73, 76, 69]

/-- `Header` from `ciebii_lib/src/header.rs` (`x`, `y` are `usize`,
`checksum` is `u32`). -/
structure Header where
  x : Nat
  y : Nat
  checksum : Nat
  deriving DecidableEq, Repr

/-- `Header::MAGIC_BYTES` (same value as `CIEBIIFILE::MAGIC_BYTES`). -/
def Header.MAGIC_BYTES : List Nat :=
  [67, 73, 69, 66, 73, 73, 70, 73, 76, 69]

/-- `Header::new(x, y)`: checksum over the 16 big-endian bytes of `x` and
`y` (`usize::to_be_bytes`, 8 bytes each), widened to `u32`. -/
def Header.new (x y : Nat) : Header :=
  { x := x, y := y, checksum := checksum' (toBeBytes 8 x ++ toBeBytes 8 y) }

/-- `Header::dimensions`. -/
def Header.dimensions (h : Header) : Nat × Nat := (h.x, h.y)

/-- `Header::as_bytes`: `[MAGIC(10) | X(8) | Y(8) | CHECKSUM(4)]`. -/
def Header.as_bytes (h : Header) : List Nat :=
  Header.MAGIC_BYTES ++ toBeBytes 8 h.x ++ toBeBytes 8 h.y ++ toBeBytes 4 h.checksum

/-- `impl TryFrom<Vec<u8>> for Header`: requires exactly 30 bytes, checks
the magic bytes, converts the width span `[10..18]`, height span `[18..26]`
and stored checksum span `[26..30]` via `try_into` + `from_be_bytes`
(a failed slice conversion is `ByteParseFail`), recomputes the checksum
over the 16 dimension bytes and compares. -/
def Header.tryFrom (bytes : List Nat) : Except ChunkError Header :=
  if bytes.length ≠ 30 then .error .InvalidLen
  else if bytes.take 10 ≠ CIEBIIFILE.MAGIC_BYTES then .error .IllegalHeader
  else
    let xb := (bytes.drop 10).take 8
    let yb := (bytes.drop 18).take 8
    let old_checksum_data := (bytes.drop 26).take 4
    let new_checksum_data := xb ++ yb
    match fromBeBytesSized 8 xb with
    | none => .error .ByteParseFail
    | some x =>
      match fromBeBytesSized 8 yb with
      | none => .error .ByteParseFail
      | some y =>
        match fromBeBytesSized 4 old_checksum_data with
        | none => .error .ByteParseFail
        | some old_checksum =>
          let new_checksum := checksum' new_checksum_data
          if old_checksum ≠ new_checksum then .error .ChecksumFail
          else .ok { x := x, y := y, checksum := new_checksum }

/-- `CIEBIIFILE` from `ciebii_lib/src/file.rs`: chunk list, cached payload
bytes, header. -/
structure CIEBIIFILE where
  chunks : List Chunk
  bytes : List Nat
  header : Header
  deriving DecidableEq, Repr

/-- `CIEBIIFILE::new(x, y)`: empty chunk list and payload. -/
def CIEBIIFILE.new (x y : Nat) : CIEBIIFILE :=
  { chunks := [], bytes := [], header := Header.new x y }

/-- The payload recomputation `chunks.iter().flat_map(|c| c.as_bytes())`. -/
def chunkPayload (chunks : List Chunk) : List Nat :=
  (chunks.map Chunk.as_bytes).flatten

/-- `CIEBIIFILE::try_from_chunks(x, y, chunks)`: the dimension product
`x * y` is a `usize` multiplication and wraps mod `2^64` (release
semantics). -/
def CIEBIIFILE.try_from_chunks (x y : Nat) (chunks : List Chunk) :
    Except ChunkError CIEBIIFILE :=
  if (x * y) % 2 ^ 64 ≠ chunks.length then .error .DimensionMismatch
  else .ok { chunks := chunks, bytes := chunkPayload chunks, header := Header.new x y }

/-- `CIEBIIFILE::dimensions`. -/
def CIEBIIFILE.dimensions (f : CIEBIIFILE) : Nat × Nat := f.header.dimensions

/-- `CIEBIIFILE::push_chunk`: appends the chunk and its bytes. -/
def CIEBIIFILE.push_chunk (f : CIEBIIFILE) (c : Chunk) : CIEBIIFILE :=
  { f with chunks := f.chunks ++ [c], bytes := f.bytes ++ c.as_bytes }

/-- `CIEBIIFILE::as_bytes`: header bytes, then payload bytes. -/
def CIEBIIFILE.as_bytes (f : CIEBIIFILE) : List Nat :=
  f.header.as_bytes ++ f.bytes

/-- `CIEBIIFILE::remove_at_index`: `&mut self` is state passing, so the
result pairs the `Result<Chunk, ChunkError>` with the updated container
(unchanged on error). -/
def CIEBIIFILE.remove_at_index (f : CIEBIIFILE) (index : Nat) :
    Except ChunkError Chunk × CIEBIIFILE :=
  if index ≥ f.chunks.length then (.error .NonExistentChunk, f)
  else
    let removed := f.chunks.getD index (Chunk.new 0 0 0)
    let chunks := f.chunks.eraseIdx index
    (.ok removed, { f with chunks := chunks, bytes := chunkPayload chunks })

/-- `CIEBIIFILE::get_at_index`. -/
def CIEBIIFILE.get_at_index (f : CIEBIIFILE) (index : Nat) : Option Chunk :=
  f.chunks.get? index

/-- `CIEBIIFILE::modify`: replaces the chunk at `index` and recomputes the
payload bytes (unchanged on error). -/
def CIEBIIFILE.modify (f : CIEBIIFILE) (index : Nat) (new_chunk : Chunk) :
    Except ChunkError Unit × CIEBIIFILE :=
  if index ≥ f.chunks.length then (.error .NonExistentChunk, f)
  else
    let chunks := f.chunks.set index new_chunk
    (.ok (), { f with chunks := chunks, bytes := chunkPayload chunks })

/-- Rust `slice::chunks(5)`: consecutive 5-byte groups, the last one
possibly shorter. -/
def chunksOf5 : List Nat → List (List Nat)
  | [] => []
  | b1 :: b2 :: b3 :: b4 :: b5 :: rest => [b1, b2, b3, b4, b5] :: chunksOf5 rest
  | l => [l]

/-- The chunk-decoding loop of `CIEBIIFILE::try_from`: decodes each record
in order, propagating the first error (the `?` operator). -/
def decodeChunks : List (List Nat) → Except ChunkError (List Chunk)
  | [] => .ok []
  | r :: rs =>
    match Chunk.tryFrom r with
    | .error e => .error e
    | .ok c =>
      match decodeChunks rs with
      | .error e => .error e
      | .ok cs => .ok (c :: cs)

/-- `impl TryFrom<Vec<u8>> for CIEBIIFILE`: slices the first 30 bytes as
the header (`&bytes[0..30]` panics when fewer than 30 bytes are given:
modelled by `none`), decodes the header, splits the whole input into
5-byte groups and skips the 6 header groups (`bytes.chunks(5).skip(6)`),
decodes each record, checks the chunk count against the `usize` product
`width * height` (wrapping mod `2^64`, release semantics), and keeps
`bytes[30..]` as the payload. -/
def CIEBIIFILE.tryFrom (bytes : List Nat) :
    Option (Except ChunkError CIEBIIFILE) :=
  if bytes.length < 30 then none
  else
    match Header.tryFrom (bytes.take 30) with
    | .error e => some (.error e)
    | .ok header =>
      match decodeChunks ((chunksOf5 bytes).drop 6) with
      | .error e => some (.error e)
      | .ok chunks =>
        if chunks.length ≠ (header.x * header.y) % 2 ^ 64 then
          some (.error .DimensionMismatch)
        else
          some (.ok { chunks := chunks, bytes := bytes.drop 30, header := header })

/-! ### Helper lemmas about the checksum loop -/

/-- The truncation `(total << 8) as u8` is always zero: shifting a 16-bit
value left by 8 leaves nothing in the low 8 bits. -/
theorem shiftTrunc_eq_zero (t : Nat) : ((t <<< 8) % 65536) % 256 = 0 := by
  rw [Nat.shiftLeft_eq]
  norm_num

/-- One unfolding of `checksumLoop`, with the always-zero truncation
simplified away: the previous byte becomes `new_byte` (mod 256). -/
theorem checksumLoop_cons (t p b : Nat) (l : List Nat) :
    checksumLoop t p (b :: l) =
      checksumLoop ((t + (b ^^^ p)) % 65536) ((b ^^^ p) % 256) l := by
  have h : checksumLoop t p (b :: l) =
      checksumLoop ((t + (b ^^^ p)) % 65536)
        (((b ^^^ p) +
          (256 - ((((t + (b ^^^ p)) % 65536) <<< 8) % 65536) % 256)) % 256) l := rfl
  rw [h, shiftTrunc_eq_zero]
  congr 1
  omega

/-- The running total stays below `2^16`. -/
theorem checksumLoop_lt (l : List Nat) : ∀ t p, t < 65536 → checksumLoop t p l < 65536 := by
  induction l with
  | nil => intro t p ht; exact ht
  | cons b rest ih =>
    intro t p _
    rw [checksumLoop_cons]
    exact ih _ _ (Nat.mod_lt _ (by omega))

/-- The checksum is a 16-bit value. -/
theorem checksum_lt (l : List Nat) : checksum l < 65536 :=
  checksumLoop_lt l 0 0xAB (by omega)

/-- Proof-side companion of `checksumLoop`: the value of the `prev`
register after consuming the list. -/
def prevAfter (t p : Nat) : List Nat → Nat
  | [] => p
  | b :: rest => prevAfter ((t + (b ^^^ p)) % 65536) ((b ^^^ p) % 256) rest

/-- Splitting the checksum loop across an append. -/
theorem checksumLoop_append (l m : List Nat) : ∀ t p,
    checksumLoop t p (l ++ m) = checksumLoop (checksumLoop t p l) (prevAfter t p l) m := by
  induction l with
  | nil => intro t p; rfl
  | cons b rest ih =>
    intro t p
    rw [List.cons_append, checksumLoop_cons, ih, checksumLoop_cons]
    rfl

/-- The `prev` register is always a byte. -/
theorem prevAfter_lt (l : List Nat) : ∀ t p, p < 256 → prevAfter t p l < 256 := by
  induction l with
  | nil => intro t p hp; exact hp
  | cons b rest ih =>
    intro t p _
    exact ih _ _ (Nat.mod_lt _ (by omega))

/-- XOR with a fixed value is injective. -/
theorem xor_right_cancel {a a' p : Nat} (h : a ^^^ p = a' ^^^ p) : a = a' := by
  have h2 := congrArg (· ^^^ p) h
  simpa [Nat.xor_assoc] using h2

/-- Checksums of two sequences that agree except in the final byte differ,
provided the two final bytes are bytes. -/
theorem checksum_last_ne (l : List Nat) {a a' : Nat}
    (ha : a < 256) (ha' : a' < 256) (hne : a ≠ a') :
    checksum (l ++ [a]) ≠ checksum (l ++ [a']) := by
  unfold checksum
  rw [checksumLoop_append, checksumLoop_append]
  set T := checksumLoop 0 0xAB l with hT
  set P := prevAfter 0 0xAB l with hP
  have hPlt : P < 256 := prevAfter_lt l 0 0xAB (by omega)
  rw [checksumLoop_cons, checksumLoop_cons]
  show (T + (a ^^^ P)) % 65536 ≠ (T + (a' ^^^ P)) % 65536
  have h1 : a ^^^ P < 65536 := by
    have := Nat.xor_lt_two_pow (n := 8) (by omega : a < 2 ^ 8) (by omega : P < 2 ^ 8)
    omega
  have h2 : a' ^^^ P < 65536 := by
    have := Nat.xor_lt_two_pow (n := 8) (by omega : a' < 2 ^ 8) (by omega : P < 2 ^ 8)
    omega
  have hxne : a ^^^ P ≠ a' ^^^ P := fun hc => hne (xor_right_cancel hc)
  intro hc
  exact hxne (by omega)

/-! ### Helper lemmas about byte encodings -/

/-- `toBeBytes` produces exactly `w` bytes. -/
theorem toBeBytes_length (w : Nat) : ∀ n, (toBeBytes w n).length = w := by
  induction w with
  | zero => intro n; rfl
  | succ w ih =>
    intro n
    simp [toBeBytes, ih]

/-- Every entry of `toBeBytes` is a byte. -/
theorem toBeBytes_mem_lt (w : Nat) : ∀ n, ∀ b ∈ toBeBytes w n, b < 256 := by
  induction w with
  | zero => intro n b hb; simp [toBeBytes] at hb
  | succ w ih =>
    intro n b hb
    simp only [toBeBytes, List.mem_append, List.mem_singleton] at hb
    rcases hb with hb | hb
    · exact ih _ b hb
    · omega

/-- `fromBeBytes` over a snoc. -/
theorem fromBeBytes_snoc (l : List Nat) (b : Nat) :
    fromBeBytes (l ++ [b]) = fromBeBytes l * 256 + b := by
  simp [fromBeBytes, List.foldl_append]

/-- Round trip: decoding the `w`-byte big-endian encoding of `n < 256^w`
returns `n`. -/
theorem fromBeBytes_toBeBytes (w : Nat) : ∀ n, n < 256 ^ w →
    fromBeBytes (toBeBytes w n) = n := by
  induction w with
  | zero => intro n hn; interval_cases n; rfl
  | succ w ih =>
    intro n hn
    have hdiv : n / 256 < 256 ^ w := by
      rw [Nat.div_lt_iff_lt_mul (by omega)]
      calc n < 256 ^ (w + 1) := hn
        _ = 256 ^ w * 256 := by ring
    simp only [toBeBytes, fromBeBytes_snoc, ih _ hdiv]
    omega

/-- Recombining the two big-endian digits of a 16-bit value with
`(hi as u16) << 8 | lo as u16` recovers the value. -/
theorem shift_or_digits (n : Nat) (hn : n < 65536) :
    ((n / 256 % 256) <<< 8) ||| n % 256 = n := by
  have h256 : n / 256 % 256 = n / 256 := Nat.mod_eq_of_lt (by omega)
  rw [h256, Nat.shiftLeft_eq]
  have hlo : n % 256 < 2 ^ 8 := by omega
  have := Nat.mul_add_lt_is_or (i := 8) hlo (n / 256)
  rw [show n / 256 * 2 ^ 8 = 2 ^ 8 * (n / 256) by ring, ← this]
  omega

/-! ### Helper lemmas about `chunksOf5` -/

theorem chunksOf5_nil : chunksOf5 [] = [] := rfl

/-- A 5-byte group peels off the front. -/
theorem chunksOf5_cons5 (a m : List Nat) (ha : a.length = 5) :
    chunksOf5 (a ++ m) = a :: chunksOf5 m := by
  match a, ha with
  | [x1, x2, x3, x4, x5], _ => rfl

/-- Flattening the 5-byte groups recovers the original list. -/
theorem chunksOf5_flatten (l : List Nat) : (chunksOf5 l).flatten = l := by
  match l with
  | [] => rfl
  | [b1] => rfl
  | [b1, b2] => rfl
  | [b1, b2, b3] => rfl
  | [b1, b2, b3, b4] => rfl
  | b1 :: b2 :: b3 :: b4 :: b5 :: rest =>
    show b1 :: b2 :: b3 :: b4 :: b5 :: (chunksOf5 rest).flatten = _
    rw [chunksOf5_flatten rest]

/-- Dropping `k` groups is dropping `5*k` bytes, when that many exist. -/
theorem chunksOf5_drop (k : Nat) : ∀ l : List Nat, 5 * k ≤ l.length →
    (chunksOf5 l).drop k = chunksOf5 (l.drop (5 * k)) := by
  induction k with
  | zero => intro l _; simp
  | succ k ih =>
    intro l hk
    match l, hk with
    | b1 :: b2 :: b3 :: b4 :: b5 :: rest, hk =>
      show (chunksOf5 rest).drop k = _
      have h5 : 5 * k ≤ rest.length := by
        simp only [List.length_cons] at hk; omega
      rw [ih rest h5]
      have harith : 5 * (k + 1) = 5 * k + 5 := by ring
      rw [harith]
      rfl
    | [], hk => simp at hk
    | [b1], hk => simp at hk; omega
    | [b1, b2], hk => simp at hk; omega
    | [b1, b2, b3], hk => simp at hk; omega
    | [b1, b2, b3, b4], hk => simp at hk; omega

/-- Every byte of every 5-byte group comes from the original list. -/
theorem chunksOf5_mem (l : List Nat) : ∀ r ∈ chunksOf5 l, ∀ b ∈ r, b ∈ l := by
  match l with
  | [] => simp [chunksOf5_nil]
  | [b1] => simp [chunksOf5]
  | [b1, b2] => simp [chunksOf5]
  | [b1, b2, b3] => simp [chunksOf5]
  | [b1, b2, b3, b4] => simp [chunksOf5]
  | b1 :: b2 :: b3 :: b4 :: b5 :: rest =>
    intro r hr b hb
    rcases List.mem_cons.mp hr with h1 | h1
    · subst h1
      simp only [List.mem_cons] at hb ⊢
      tauto
    · have := chunksOf5_mem rest r h1 b hb
      simp only [List.mem_cons]
      tauto

/-! ### Chunk encode/decode lemmas -/

/-- `Chunk.tryFrom` evaluated on an explicit 5-byte record. -/
theorem Chunk.tryFrom_five (a b c d e : Nat) :
    Chunk.tryFrom [a, b, c, d, e] =
      if (d <<< 8) ||| e ≠ checksum' [a, b, c] then .error .ChecksumFail
      else .ok ⟨⟨a, b, c⟩, checksum' [a, b, c]⟩ := rfl

/-- A chunk encodes on 5 bytes. -/
theorem Chunk.length_as_bytes (c : Chunk) : c.as_bytes.length = 5 := by
  simp [Chunk.as_bytes, RGB.as_bytes, toBeBytes_length]

/-- The byte form of a chunk encoding. -/
theorem Chunk.as_bytes_eq (c : Chunk) :
    c.as_bytes = [c.rgb.r, c.rgb.g, c.rgb.b,
      c.checksum / 256 % 256, c.checksum % 256] := by
  simp [Chunk.as_bytes, RGB.as_bytes, toBeBytes]

/-- Decoding the encoding of a well-formed chunk (one whose stored checksum
is the checksum of its RGB bytes, as `Chunk::new` and chunk decoding
guarantee) gives the chunk back. -/
theorem Chunk.tryFrom_as_bytes (c : Chunk)
    (hwf : c.checksum = checksum' c.rgb.as_bytes) :
    Chunk.tryFrom c.as_bytes = .ok c := by
  obtain ⟨⟨r, g, b⟩, cks⟩ := c
  simp only [RGB.as_bytes] at hwf
  have hlt : cks < 65536 := by
    rw [hwf]; exact checksum_lt _
  rw [Chunk.as_bytes_eq, Chunk.tryFrom_five]
  simp only at hwf ⊢
  rw [shift_or_digits cks hlt]
  rw [if_neg (by simp [hwf] : ¬cks ≠ checksum' [r, g, b])]
  simp [hwf]

/-- Decoding a 5-byte record of bytes succeeds only when the stored
checksum matches, and then the decoded chunk re-encodes to the record. -/
theorem Chunk.tryFrom_ok (rec : List Nat) (c : Chunk)
    (hok : Chunk.tryFrom rec = .ok c) (hbytes : ∀ b ∈ rec, b < 256) :
    rec = c.as_bytes ∧ c.checksum = checksum' c.rgb.as_bytes := by
  match rec with
  | [a, b, cc, d, e] =>
    rw [Chunk.tryFrom_five] at hok
    by_cases hchk : (d <<< 8) ||| e ≠ checksum' [a, b, cc]
    · rw [if_pos hchk] at hok; exact absurd hok (by simp)
    · rw [if_neg hchk] at hok
      push_neg at hchk
      have hc : c = ⟨⟨a, b, cc⟩, checksum' [a, b, cc]⟩ := by
        simpa using hok.symm
      have hd : d < 256 := hbytes d (by simp)
      have he : e < 256 := hbytes e (by simp)
      have hor : (d <<< 8) ||| e = 256 * d + e := by
        have h := Nat.mul_add_lt_is_or (i := 8) (by omega : e < 2 ^ 8) d
        have h2 : (2 : Nat) ^ 8 = 256 := by norm_num
        rw [h2] at h
        rw [Nat.shiftLeft_eq, h2, Nat.mul_comm d 256, ← h]
      subst hc
      refine ⟨?_, by simp [RGB.as_bytes, hchk.symm]⟩
      rw [Chunk.as_bytes_eq]
      simp only [← hchk, hor]
      have h1 : (256 * d + e) / 256 % 256 = d := by omega
      have h2 : (256 * d + e) % 256 = e := by omega
      rw [h1, h2]
  | [] => exact absurd hok (by simp [Chunk.tryFrom])
  | [a] => exact absurd hok (by simp [Chunk.tryFrom])
  | [a, b] => exact absurd hok (by simp [Chunk.tryFrom])
  | [a, b, cc] => exact absurd hok (by simp [Chunk.tryFrom])
  | [a, b, cc, d] => exact absurd hok (by simp [Chunk.tryFrom])
  | a :: b :: cc :: d :: e :: f :: t =>
    rw [Chunk.tryFrom, if_pos (by simp only [List.length_cons]; omega)] at hok
    exact absurd hok (by simp)

/-! ### decodeChunks lemmas -/

/-- Decoding the encodings of well-formed chunks recovers them. -/
theorem decodeChunks_map_as_bytes (cs : List Chunk)
    (hwf : ∀ c ∈ cs, c.checksum = checksum' c.rgb.as_bytes) :
    decodeChunks (cs.map Chunk.as_bytes) = .ok cs := by
  induction cs with
  | nil => rfl
  | cons c cs ih =>
    simp only [List.map_cons, decodeChunks]
    rw [Chunk.tryFrom_as_bytes c (hwf c (by simp))]
    rw [ih (fun c' hc' => hwf c' (by simp [hc']))]

/-- A successful `decodeChunks` run decodes the records pointwise. -/
theorem decodeChunks_forall₂ (rs : List (List Nat)) (cs : List Chunk)
    (h : decodeChunks rs = .ok cs) :
    List.Forall₂ (fun r c => Chunk.tryFrom r = .ok c) rs cs := by
  induction rs generalizing cs with
  | nil =>
    simp only [decodeChunks] at h
    cases h
    constructor
  | cons r rs ih =>
    simp only [decodeChunks] at h
    cases htf : Chunk.tryFrom r with
    | error e => rw [htf] at h; exact absurd h (by simp)
    | ok c =>
      rw [htf] at h
      cases hdc : decodeChunks rs with
      | error e => rw [hdc] at h; exact absurd h (by simp)
      | ok cs' =>
        rw [hdc] at h
        have : cs = c :: cs' := by simpa using h.symm
        subst this
        exact List.Forall₂.cons htf (ih cs' hdc)

/-- `decodeChunks` succeeds when every record decodes, with one chunk per
record. -/
theorem decodeChunks_all_ok (rs : List (List Nat))
    (h : ∀ r ∈ rs, (Chunk.tryFrom r).isOk) :
    ∃ cs, decodeChunks rs = .ok cs ∧ cs.length = rs.length := by
  induction rs with
  | nil => exact ⟨[], rfl, rfl⟩
  | cons r rs ih =>
    obtain ⟨cs, hcs, hlen⟩ := ih (fun r' hr' => h r' (by simp [hr']))
    have hr := h r (by simp)
    cases htf : Chunk.tryFrom r with
    | error e => rw [htf] at hr; simp [Except.isOk, Except.toBool] at hr
    | ok c =>
      refine ⟨c :: cs, ?_, by simp [hlen]⟩
      simp only [decodeChunks, htf, hcs]

/-! ### Header encode/decode lemmas -/

/-- A header encodes on 30 bytes. -/
theorem Header.as_bytes_length (h : Header) : h.as_bytes.length = 30 := by
  simp [Header.as_bytes, Header.MAGIC_BYTES, toBeBytes_length]

/-- Decoding the encoding of a freshly constructed header gives it back,
for dimensions in the `usize` range. -/
theorem Header.tryFrom_new (x y : Nat) (hx : x < 2 ^ 64) (hy : y < 2 ^ 64) :
    Header.tryFrom (Header.new x y).as_bytes = .ok (Header.new x y) := by
  have hpow : (256 : Nat) ^ 8 = 2 ^ 64 := by norm_num
  have hx' : x < 256 ^ 8 := by rw [hpow]; exact hx
  have hy' : y < 256 ^ 8 := by rw [hpow]; exact hy
  set cks := checksum' (toBeBytes 8 x ++ toBeBytes 8 y) with hcks
  have hckslt : cks < 65536 := checksum_lt _
  have hcks' : cks < 256 ^ 4 := by norm_num; omega
  have hbytes : (Header.new x y).as_bytes =
      Header.MAGIC_BYTES ++ (toBeBytes 8 x ++ (toBeBytes 8 y ++ toBeBytes 4 cks)) := by
    simp [Header.as_bytes, Header.new, hcks, List.append_assoc]
  have hlen : (Header.new x y).as_bytes.length = 30 := Header.as_bytes_length _
  have htake10 : (Header.new x y).as_bytes.take 10 = Header.MAGIC_BYTES := by
    rw [hbytes]; exact List.take_left' rfl
  have hdrop10 : (Header.new x y).as_bytes.drop 10 =
      toBeBytes 8 x ++ (toBeBytes 8 y ++ toBeBytes 4 cks) := by
    rw [hbytes]; exact List.drop_left' rfl
  have hxb : ((Header.new x y).as_bytes.drop 10).take 8 = toBeBytes 8 x := by
    rw [hdrop10]; exact List.take_left' (toBeBytes_length 8 x)
  have hdrop18 : (Header.new x y).as_bytes.drop 18 =
      toBeBytes 8 y ++ toBeBytes 4 cks := by
    rw [hbytes, show Header.MAGIC_BYTES ++ (toBeBytes 8 x ++ (toBeBytes 8 y ++ toBeBytes 4 cks)) =
      (Header.MAGIC_BYTES ++ toBeBytes 8 x) ++ (toBeBytes 8 y ++ toBeBytes 4 cks) from by
        simp [List.append_assoc]]
    exact List.drop_left' (by simp [Header.MAGIC_BYTES, toBeBytes_length])
  have hyb : ((Header.new x y).as_bytes.drop 18).take 8 = toBeBytes 8 y := by
    rw [hdrop18]; exact List.take_left' (toBeBytes_length 8 y)
  have hdrop26 : (Header.new x y).as_bytes.drop 26 = toBeBytes 4 cks := by
    rw [hbytes, show Header.MAGIC_BYTES ++ (toBeBytes 8 x ++ (toBeBytes 8 y ++ toBeBytes 4 cks)) =
      (Header.MAGIC_BYTES ++ toBeBytes 8 x ++ toBeBytes 8 y) ++ toBeBytes 4 cks from by
        simp [List.append_assoc]]
    exact List.drop_left' (by simp [Header.MAGIC_BYTES, toBeBytes_length])
  have hcb : ((Header.new x y).as_bytes.drop 26).take 4 = toBeBytes 4 cks := by
    rw [hdrop26]
    exact List.take_of_length_le (by rw [toBeBytes_length])
  rw [Header.tryFrom]
  rw [if_neg (by rw [hlen]; omega)]
  rw [if_neg (by rw [htake10]; decide)]
  simp only [hxb, hyb, hcb]
  rw [show fromBeBytesSized 8 (toBeBytes 8 x) = some x from by
    simp [fromBeBytesSized, toBeBytes_length, fromBeBytes_toBeBytes 8 x hx']]
  rw [show fromBeBytesSized 8 (toBeBytes 8 y) = some y from by
    simp [fromBeBytesSized, toBeBytes_length, fromBeBytes_toBeBytes 8 y hy']]
  rw [show fromBeBytesSized 4 (toBeBytes 4 cks) = some cks from by
    simp [fromBeBytesSized, toBeBytes_length, fromBeBytes_toBeBytes 4 cks hcks']]
  show (if cks ≠ checksum' (toBeBytes 8 x ++ toBeBytes 8 y) then
      (Except.error ChunkError.ChecksumFail : Except ChunkError Header)
    else Except.ok { x := x, y := y, checksum := checksum' (toBeBytes 8 x ++ toBeBytes 8 y) }) =
    Except.ok (Header.new x y)
  rw [if_neg (by simp [hcks])]
  rfl

/-- The payload of a chunk list splits back into the chunk encodings. -/
theorem chunksOf5_payload (cs : List Chunk) :
    chunksOf5 (chunkPayload cs) = cs.map Chunk.as_bytes := by
  induction cs with
  | nil => simp [chunkPayload, chunksOf5_nil]
  | cons c cs ih =>
    simp only [chunkPayload, List.map_cons, List.flatten_cons]
    rw [chunksOf5_cons5 _ _ (Chunk.length_as_bytes c)]
    simp only [chunkPayload] at ih
    rw [ih]

/-- Evaluation of the container decoder once the header and the chunk
records are known to decode. -/
theorem CIEBIIFILE.tryFrom_eval (bytes : List Nat) (hd : Header) (cs : List Chunk)
    (hlen : 30 ≤ bytes.length)
    (hh : Header.tryFrom (bytes.take 30) = .ok hd)
    (hc : decodeChunks ((chunksOf5 bytes).drop 6) = .ok cs) :
    CIEBIIFILE.tryFrom bytes =
      if cs.length ≠ (hd.x * hd.y) % 2 ^ 64 then some (.error .DimensionMismatch)
      else some (.ok ⟨cs, bytes.drop 30, hd⟩) := by
  rw [CIEBIIFILE.tryFrom, if_neg (by omega), hh, hc]

/-! ### Claim theorems -/

/-- C1: for every `width, height < 2^64` (the `usize` domain) and every
sequence of well-formed chunks of length `width * height` (a length that,
being a Rust `Vec` length, is itself a `usize`), the container built by
`try_from_chunks` decodes from its own encoding unchanged: same header
dimensions, same chunks in the same order, same cached payload. -/
theorem c1_roundtrip (w h : Nat) (chunks : List Chunk)
    (hw : w < 2 ^ 64) (hh : h < 2 ^ 64)
    (hwf : ∀ c ∈ chunks, c.checksum = checksum' c.rgb.as_bytes)
    (hlen : chunks.length = w * h) (hvec : chunks.length < 2 ^ 64) :
    ∃ f : CIEBIIFILE, CIEBIIFILE.try_from_chunks w h chunks = .ok f ∧
      CIEBIIFILE.tryFrom f.as_bytes = some (.ok f) := by
  refine ⟨⟨chunks, chunkPayload chunks, Header.new w h⟩, ?_, ?_⟩
  · rw [CIEBIIFILE.try_from_chunks, if_neg (by omega)]
  · set f : CIEBIIFILE := ⟨chunks, chunkPayload chunks, Header.new w h⟩ with hf
    have hfb : f.as_bytes = (Header.new w h).as_bytes ++ chunkPayload chunks := rfl
    have hhlen : (Header.new w h).as_bytes.length = 30 := Header.as_bytes_length _
    have htot : f.as_bytes.length = 30 + (chunkPayload chunks).length := by
      rw [hfb]; simp [hhlen]
    have htake : f.as_bytes.take 30 = (Header.new w h).as_bytes := by
      rw [hfb]; exact List.take_left' hhlen
    have hdrop : f.as_bytes.drop 30 = chunkPayload chunks := by
      rw [hfb]; exact List.drop_left' hhlen
    have hrecords : (chunksOf5 f.as_bytes).drop 6 = chunks.map Chunk.as_bytes := by
      rw [show (6 : Nat) = 6 from rfl, chunksOf5_drop 6 f.as_bytes (by omega)]
      rw [show (5 * 6 : Nat) = 30 from rfl, hdrop]
      exact chunksOf5_payload chunks
    rw [CIEBIIFILE.tryFrom_eval f.as_bytes (Header.new w h) chunks (by omega)
      (by rw [htake]; exact Header.tryFrom_new w h hw hh)
      (by rw [hrecords]; exact decodeChunks_map_as_bytes chunks hwf)]
    rw [if_neg (by simp only [Header.new]; omega)]
    rw [hdrop]

/-- C1 (witness): a concrete 1x1 container round-trips. -/
theorem c1_roundtrip_witness :
    ∃ f : CIEBIIFILE, CIEBIIFILE.try_from_chunks 1 1 [Chunk.new 255 0 0] = .ok f ∧
      CIEBIIFILE.tryFrom f.as_bytes = some (.ok f) :=
  c1_roundtrip 1 1 [Chunk.new 255 0 0] (by decide) (by decide) (by decide)
    (by decide) (by decide)

/-- Modelled from the words of claim C2: the previous byte is updated to
`new_byte` minus the current high byte of the accumulator
(`accumulator >> 8` truncated to 8 bits), with 8-bit wraparound
subtraction. -/
def checksumSpecLoop (total prev : Nat) : List Nat → Nat
  | [] => total
  | b :: rest =>
    checksumSpecLoop ((total + (b ^^^ prev)) % 65536)
      (((b ^^^ prev) + (256 - ((((total + (b ^^^ prev)) % 65536) >>> 8) % 256))) % 256) rest

/-- The checksum the words of claim C2 describe. -/
def checksumSpec (data : List Nat) : Nat :=
  checksumSpecLoop 0 0xAB data

/-- C2 (counterexample): on `[0, 0, 0]` the code computes 513 but the
claimed recurrence computes 512 — the code subtracts the low byte of
`total << 8` (always zero), not the high byte `total >> 8`. -/
theorem c2_counterexample :
    checksum [0, 0, 0] = 513 ∧ checksumSpec [0, 0, 0] = 512 ∧
      ¬ checksum [0, 0, 0] = checksumSpec [0, 0, 0] := by decide

/-- The amended recurrence: since `(total << 8) as u8` is always zero, the
previous byte simply becomes `new_byte`. -/
def checksumAmendedLoop (total prev : Nat) : List Nat → Nat
  | [] => total
  | b :: rest => checksumAmendedLoop ((total + (b ^^^ prev)) % 65536) (b ^^^ prev) rest

/-- The checksum with the amended previous-byte update. -/
def checksumAmended (data : List Nat) : Nat :=
  checksumAmendedLoop 0 0xAB data

/-- The code's loop agrees with the amended recurrence on byte inputs. -/
theorem checksumLoop_amended (l : List Nat) : ∀ t p, p < 256 →
    (∀ b ∈ l, b < 256) → checksumLoop t p l = checksumAmendedLoop t p l := by
  induction l with
  | nil => intros; rfl
  | cons b rest ih =>
    intro t p hp hb
    rw [checksumLoop_cons]
    have hb256 : b < 256 := hb b (by simp)
    have hx : b ^^^ p < 256 := by
      have := Nat.xor_lt_two_pow (n := 8) (by omega : b < 2 ^ 8) (by omega : p < 2 ^ 8)
      omega
    rw [Nat.mod_eq_of_lt hx]
    show checksumLoop ((t + (b ^^^ p)) % 65536) (b ^^^ p) rest =
      checksumAmendedLoop ((t + (b ^^^ p)) % 65536) (b ^^^ p) rest
    exact ih _ _ hx (fun b' h' => hb b' (by simp [h']))

/-- C2 (amended): for every byte sequence, the checksum starts with a
16-bit accumulator 0 and previous byte `0xAB`, and per input byte sets
`new_byte = b XOR previous`, adds `new_byte` with 16-bit wraparound, and
sets `previous = new_byte - low_byte(accumulator << 8)`, a value that is
always zero, so previous simply becomes `new_byte`. -/
theorem c2_amended (data : List Nat) (hbytes : ∀ b ∈ data, b < 256) :
    checksum data = checksumAmended data :=
  checksumLoop_amended data 0 0xAB (by omega) hbytes

/-- C2 (amended, witness): concrete byte input. -/
theorem c2_amended_witness :
    (∀ b ∈ [0xAB, 0xCD, 0xEF], b < 256) ∧
      checksum [0xAB, 0xCD, 0xEF] = checksumAmended [0xAB, 0xCD, 0xEF] :=
  ⟨by decide, c2_amended [0xAB, 0xCD, 0xEF] (by decide)⟩

/-- C3 (counterexample): `checksum([0xAB, 0xCD, 0xEF])` is not 252 (252 is
the checksum of `[255, 0, 0]`). -/
theorem c3_counterexample : ¬ checksum [0xAB, 0xCD, 0xEF] = 252 := by decide

/-- C3 (amended): `checksum([0xAB, 0xCD, 0xEF]) = 239`, the value the
library's own chunk tests store for that color. -/
theorem c3_amended : checksum [0xAB, 0xCD, 0xEF] = 239 := by decide

/-- C6: `Header::new(20, 20)` has checksum 2896 and encodes to exactly the
30 bytes the spec lists. -/
theorem c6_header20 :
    (Header.new 20 20).checksum = 2896 ∧
      (Header.new 20 20).as_bytes =
        [0x43, 0x49, 0x45, 0x42, 0x49, 0x49, 0x46, 0x49, 0x4C, 0x45,
         0, 0, 0, 0, 0, 0, 0, 20, 0, 0, 0, 0, 0, 0, 0, 20, 0, 0, 11, 80] := by
  constructor
  · rfl
  · rfl

/-- C4 (code evaluated at the failing input): a 29-byte input makes the
container decoder hit the out-of-range slice `&bytes[0..30]` — a fatal
panic (modelled `none`), not a recoverable `InvalidLength`; a valid
30-byte header followed by 3 trailing bytes (not a multiple of 5) does
return `InvalidLen` as the claim states. -/
theorem c4_short_input_panics :
    CIEBIIFILE.tryFrom (List.replicate 29 0) = none ∧
      CIEBIIFILE.tryFrom ((Header.new 20 20).as_bytes ++ [1, 2, 3]) =
        some (.error .InvalidLen) :=
  ⟨rfl, rfl⟩

/-- C5 (counterexample): the chunk record `[0, 0, 255, 1, 170]` is validly
encoded (checksum 426 = 0x01AA); flipping its second color byte from 0 to
1, keeping the stored checksum, yields `[0, 1, 255, 1, 170]`, which still
decodes successfully instead of failing with ChecksumMismatch: the
checksum does not detect every single-byte flip. -/
theorem c5_counterexample :
    Chunk.tryFrom [0, 0, 255, 1, 170] = .ok ⟨⟨0, 0, 255⟩, 426⟩ ∧
      Chunk.tryFrom [0, 1, 255, 1, 170] = .ok ⟨⟨0, 1, 255⟩, 426⟩ :=
  ⟨rfl, rfl⟩

/-- Evaluation of the header decoder on any well-shaped 10/8/8/4 split. -/
theorem Header.tryFrom_parts (xb yb cb : List Nat) (hx : xb.length = 8)
    (hy : yb.length = 8) (hc : cb.length = 4) :
    Header.tryFrom (Header.MAGIC_BYTES ++ xb ++ yb ++ cb) =
      if fromBeBytes cb ≠ checksum' (xb ++ yb) then .error .ChecksumFail
      else .ok ⟨fromBeBytes xb, fromBeBytes yb, checksum' (xb ++ yb)⟩ := by
  set bytes := Header.MAGIC_BYTES ++ xb ++ yb ++ cb with hbytes
  have hlen : bytes.length = 30 := by
    simp [hbytes, Header.MAGIC_BYTES, hx, hy, hc]
  have htake10 : bytes.take 10 = Header.MAGIC_BYTES := by
    rw [hbytes, show Header.MAGIC_BYTES ++ xb ++ yb ++ cb =
      Header.MAGIC_BYTES ++ (xb ++ (yb ++ cb)) from by simp [List.append_assoc]]
    exact List.take_left' rfl
  have hdrop10 : bytes.drop 10 = xb ++ (yb ++ cb) := by
    rw [hbytes, show Header.MAGIC_BYTES ++ xb ++ yb ++ cb =
      Header.MAGIC_BYTES ++ (xb ++ (yb ++ cb)) from by simp [List.append_assoc]]
    exact List.drop_left' rfl
  have hxb : (bytes.drop 10).take 8 = xb := by
    rw [hdrop10]; exact List.take_left' hx
  have hdrop18 : bytes.drop 18 = yb ++ cb := by
    rw [hbytes, show Header.MAGIC_BYTES ++ xb ++ yb ++ cb =
      (Header.MAGIC_BYTES ++ xb) ++ (yb ++ cb) from by simp [List.append_assoc]]
    exact List.drop_left' (by simp [Header.MAGIC_BYTES, hx])
  have hyb : (bytes.drop 18).take 8 = yb := by
    rw [hdrop18]; exact List.take_left' hy
  have hdrop26 : bytes.drop 26 = cb := by
    rw [hbytes]
    exact List.drop_left' (by simp [Header.MAGIC_BYTES, hx, hy])
  have hcb : (bytes.drop 26).take 4 = cb := by
    rw [hdrop26]
    exact List.take_of_length_le (by rw [hc])
  rw [Header.tryFrom]
  rw [if_neg (by rw [hlen]; omega)]
  rw [if_neg (by rw [htake10]; decide)]
  simp only [hxb, hyb, hcb]
  rw [show fromBeBytesSized 8 xb = some (fromBeBytes xb) from by
    simp [fromBeBytesSized, hx]]
  rw [show fromBeBytesSized 8 yb = some (fromBeBytes yb) from by
    simp [fromBeBytesSized, hy]]
  rw [show fromBeBytesSized 4 cb = some (fromBeBytes cb) from by
    simp [fromBeBytesSized, hc]]

/-- C5 (amended): flipping the final color byte of a validly encoded
chunk, or the final dimension byte of a validly encoded header, while
keeping the stored trailing checksum, always makes the corresponding
decode fail with ChecksumMismatch. -/
theorem c5_amended :
    (∀ b0 b1 b2 b2' : Nat, b2 < 256 → b2' < 256 → b2 ≠ b2' →
      Chunk.tryFrom ([b0, b1, b2'] ++ toBeBytes 2 (checksum [b0, b1, b2])) =
        .error .ChecksumFail) ∧
    (∀ x y d' : Nat, d' < 256 → d' ≠ y % 256 →
      Header.tryFrom (Header.MAGIC_BYTES ++ toBeBytes 8 x ++
          (toBeBytes 7 (y / 256) ++ [d']) ++
          toBeBytes 4 (checksum (toBeBytes 8 x ++ toBeBytes 8 y))) =
        .error .ChecksumFail) := by
  constructor
  · intro b0 b1 b2 b2' h2 h2' hne
    have hK : checksum [b0, b1, b2] < 65536 := checksum_lt _
    have hb : [b0, b1, b2'] ++ toBeBytes 2 (checksum [b0, b1, b2]) =
        [b0, b1, b2', checksum [b0, b1, b2] / 256 % 256,
          checksum [b0, b1, b2] % 256] := by
      simp [toBeBytes]
    rw [hb, Chunk.tryFrom_five, shift_or_digits _ hK]
    rw [if_pos ?_]
    show checksum [b0, b1, b2] ≠ checksum' [b0, b1, b2']
    have := checksum_last_ne [b0, b1] h2 h2' hne
    simpa using this
  · intro x y d' hd' hne
    have hy8 : toBeBytes 8 y = toBeBytes 7 (y / 256) ++ [y % 256] := rfl
    have hK : checksum (toBeBytes 8 x ++ toBeBytes 8 y) < 65536 := checksum_lt _
    rw [Header.tryFrom_parts (toBeBytes 8 x) (toBeBytes 7 (y / 256) ++ [d'])
      (toBeBytes 4 (checksum (toBeBytes 8 x ++ toBeBytes 8 y)))
      (toBeBytes_length 8 x) (by simp [toBeBytes_length]) (toBeBytes_length 4 _)]
    rw [if_pos ?_]
    rw [fromBeBytes_toBeBytes 4 _ (by norm_num; omega)]
    show checksum (toBeBytes 8 x ++ toBeBytes 8 y) ≠
      checksum' (toBeBytes 8 x ++ (toBeBytes 7 (y / 256) ++ [d']))
    rw [hy8, ← List.append_assoc, ← List.append_assoc]
    exact checksum_last_ne _ (by omega : y % 256 < 256) hd' (Ne.symm hne)

/-- C5 (amended, witness): concrete last-byte flips for a chunk and a
header. -/
theorem c5_amended_witness :
    Chunk.tryFrom ([0, 0, 1] ++ toBeBytes 2 (checksum [0, 0, 0])) =
        .error .ChecksumFail ∧
      Header.tryFrom (Header.MAGIC_BYTES ++ toBeBytes 8 20 ++
          (toBeBytes 7 (20 / 256) ++ [21]) ++
          toBeBytes 4 (checksum (toBeBytes 8 20 ++ toBeBytes 8 20))) =
        .error .ChecksumFail :=
  ⟨c5_amended.1 0 0 0 1 (by decide) (by decide) (by decide),
   c5_amended.2 20 20 21 (by decide) (by decide)⟩

/-- C10: on every 30-byte input whose first 10 bytes are the magic
constant, the header decoder never returns ByteParseFail: the three
fixed-width slice conversions always succeed. -/
theorem c10_no_byteparsefail (bytes : List Nat) (h30 : bytes.length = 30)
    (hm : bytes.take 10 = CIEBIIFILE.MAGIC_BYTES) :
    Header.tryFrom bytes ≠ .error .ByteParseFail := by
  set xb := (bytes.drop 10).take 8 with hxb
  set yb := ((bytes.drop 10).drop 8).take 8 with hyb
  set cb := ((bytes.drop 10).drop 8).drop 8 with hcb
  have hdlen : (bytes.drop 10).length = 20 := by simp [h30]
  have hxlen : xb.length = 8 := by
    rw [hxb]; simp only [List.length_take, List.length_drop, h30]; decide
  have hylen : yb.length = 8 := by
    rw [hyb]; simp only [List.length_take, List.length_drop, h30]; decide
  have hclen : cb.length = 4 := by
    rw [hcb]; simp only [List.length_drop, h30]
  have hdecomp : bytes = Header.MAGIC_BYTES ++ xb ++ yb ++ cb := by
    have h1 : bytes = bytes.take 10 ++ bytes.drop 10 :=
      (List.take_append_drop 10 bytes).symm
    have h2 : bytes.drop 10 = xb ++ ((bytes.drop 10).drop 8) :=
      (List.take_append_drop 8 (bytes.drop 10)).symm
    have h3 : (bytes.drop 10).drop 8 = yb ++ cb :=
      (List.take_append_drop 8 ((bytes.drop 10).drop 8)).symm
    rw [show Header.MAGIC_BYTES ++ xb ++ yb ++ cb =
      Header.MAGIC_BYTES ++ (xb ++ (yb ++ cb)) from by simp [List.append_assoc]]
    rw [← h3, ← h2, show Header.MAGIC_BYTES = CIEBIIFILE.MAGIC_BYTES from rfl, ← hm]
    exact h1
  rw [hdecomp, Header.tryFrom_parts xb yb cb hxlen hylen hclen]
  by_cases hck : fromBeBytes cb ≠ checksum' (xb ++ yb)
  · rw [if_pos hck]; simp
  · rw [if_neg hck]; simp

/-- C10 (witness): the encoded `Header::new(20, 20)` is a 30-byte
magic-prefixed input. -/
theorem c10_no_byteparsefail_witness :
    Header.tryFrom (Header.new 20 20).as_bytes ≠ .error .ByteParseFail :=
  c10_no_byteparsefail (Header.new 20 20).as_bytes (by decide) (by decide)

/-- C7 (counterexample): with `w = h = 2^32` and no chunks, the `usize`
product wraps to 0, so `try_from_chunks` succeeds even though
`chunks.length ≠ w * h` (0 ≠ 2^64), and the container decoder likewise
accepts a valid header declaring 2^32 x 2^32 with zero records — refuting
both claimed iffs. -/
theorem c7_counterexample :
    CIEBIIFILE.try_from_chunks 4294967296 4294967296 [] =
        .ok ⟨[], [], Header.new 4294967296 4294967296⟩ ∧
      ([] : List Chunk).length ≠ 4294967296 * 4294967296 ∧
      CIEBIIFILE.tryFrom (Header.new 4294967296 4294967296).as_bytes =
        some (.ok ⟨[], [], Header.new 4294967296 4294967296⟩) ∧
      (0 : Nat) ≠
        (Header.new 4294967296 4294967296).x *
          (Header.new 4294967296 4294967296).y :=
  ⟨rfl, by decide, rfl, by decide⟩

/-- C7 (amended): `try_from_chunks` fails with DimensionMismatch exactly
when the chunk count differs from the `usize` product `w * h` (wrapping
mod `2^64`); and when the header and every 5-byte record decode, the
container decoder fails with DimensionMismatch exactly when the record
count differs from the header's `width * height` computed the same way. -/
theorem c7_dimension_mismatch (w h : Nat) (cs : List Chunk) (bytes : List Nat)
    (hd : Header)
    (h1 : Header.tryFrom (bytes.take 30) = .ok hd)
    (h2 : ∀ r ∈ chunksOf5 (bytes.drop 30), (Chunk.tryFrom r).isOk) :
    (CIEBIIFILE.try_from_chunks w h cs = .error .DimensionMismatch ↔
      cs.length ≠ (w * h) % 2 ^ 64) ∧
    (CIEBIIFILE.tryFrom bytes = some (.error .DimensionMismatch) ↔
      (chunksOf5 (bytes.drop 30)).length ≠ (hd.x * hd.y) % 2 ^ 64) := by
  have hlen30 : 30 ≤ bytes.length := by
    by_contra hlt
    push_neg at hlt
    have htl : (bytes.take 30).length = bytes.length := by
      rw [List.length_take]; omega
    rw [Header.tryFrom, if_pos (by omega)] at h1
    exact absurd h1 (by simp)
  constructor
  · rw [CIEBIIFILE.try_from_chunks]
    by_cases hcond : (w * h) % 2 ^ 64 ≠ cs.length
    · rw [if_pos hcond]; simp; omega
    · rw [if_neg hcond]; simp; omega
  · have hrec : (chunksOf5 bytes).drop 6 = chunksOf5 (bytes.drop 30) :=
      chunksOf5_drop 6 bytes (by omega)
    obtain ⟨cs', hcs', hlen'⟩ := decodeChunks_all_ok _ h2
    rw [CIEBIIFILE.tryFrom_eval bytes hd cs' hlen30 h1 (by rw [hrec]; exact hcs')]
    by_cases hdim : cs'.length ≠ (hd.x * hd.y) % 2 ^ 64
    · rw [if_pos hdim]; simp; omega
    · rw [if_neg hdim]; simp; omega

/-- C7 (witness): a bare 30-byte header of dimensions 0x0 and a 2x2
construction from zero chunks. -/
theorem c7_dimension_mismatch_witness :
    (CIEBIIFILE.try_from_chunks 2 2 [] = .error .DimensionMismatch ↔
      ([] : List Chunk).length ≠ (2 * 2) % 2 ^ 64) ∧
    (CIEBIIFILE.tryFrom (Header.new 0 0).as_bytes =
        some (.error .DimensionMismatch) ↔
      (chunksOf5 ((Header.new 0 0).as_bytes.drop 30)).length ≠
        ((Header.new 0 0).x * (Header.new 0 0).y) % 2 ^ 64) :=
  c7_dimension_mismatch 2 2 [] (Header.new 0 0).as_bytes (Header.new 0 0)
    (by rfl) (by decide)

/-- Erasing index `i` leaves earlier positions unchanged. -/
theorem getElem?_eraseIdx_lt {α : Type} (l : List α) (i j : Nat) (hj : j < i)
    (hi : i ≤ l.length) : (l.eraseIdx i)[j]? = l[j]? := by
  rw [List.eraseIdx_eq_take_drop_succ]
  rw [List.getElem?_append_left (by simp [List.length_take]; omega)]
  exact List.getElem?_take_of_lt hj

/-- Erasing index `i` shifts later positions down by one. -/
theorem getElem?_eraseIdx_ge {α : Type} (l : List α) (i j : Nat) (hj : i ≤ j)
    (hi : i ≤ l.length) : (l.eraseIdx i)[j]? = l[j + 1]? := by
  rw [List.eraseIdx_eq_take_drop_succ]
  rw [List.getElem?_append_right (by simp [List.length_take]; omega)]
  rw [List.getElem?_drop]
  congr 1
  simp only [List.length_take]
  omega

/-- C8: with an out-of-range index, `remove_at_index` and `modify` fail
with NonExistentChunk and leave the container unchanged; with an in-range
index they change exactly that slot (other chunks keep their values and
relative order, the header is untouched) and the cached payload becomes
the concatenation of the encodings of the resulting chunks in order. -/
theorem c8_remove_replace (f : CIEBIIFILE) (i : Nat) (c : Chunk) :
    (f.chunks.length ≤ i →
      f.remove_at_index i = (.error .NonExistentChunk, f) ∧
      f.modify i c = (.error .NonExistentChunk, f)) ∧
    (i < f.chunks.length →
      ((f.remove_at_index i).1 = .ok (f.chunks.getD i (Chunk.new 0 0 0)) ∧
        (f.remove_at_index i).2.header = f.header ∧
        (f.remove_at_index i).2.chunks.length + 1 = f.chunks.length ∧
        (∀ j, j < i → (f.remove_at_index i).2.chunks[j]? = f.chunks[j]?) ∧
        (∀ j, i ≤ j → (f.remove_at_index i).2.chunks[j]? = f.chunks[j + 1]?) ∧
        (f.remove_at_index i).2.bytes =
          ((f.remove_at_index i).2.chunks.map Chunk.as_bytes).flatten) ∧
      ((f.modify i c).1 = .ok () ∧
        (f.modify i c).2.header = f.header ∧
        (f.modify i c).2.chunks.length = f.chunks.length ∧
        (f.modify i c).2.chunks[i]? = some c ∧
        (∀ j, j ≠ i → (f.modify i c).2.chunks[j]? = f.chunks[j]?) ∧
        (f.modify i c).2.bytes =
          ((f.modify i c).2.chunks.map Chunk.as_bytes).flatten)) := by
  constructor
  · intro hle
    rw [CIEBIIFILE.remove_at_index, if_pos (by omega), CIEBIIFILE.modify,
      if_pos (by omega)]
    exact ⟨rfl, rfl⟩
  · intro hlt
    have hnot : ¬ i ≥ f.chunks.length := by omega
    rw [CIEBIIFILE.remove_at_index, if_neg hnot, CIEBIIFILE.modify, if_neg hnot]
    refine ⟨⟨rfl, rfl, ?_, ?_, ?_, rfl⟩, rfl, rfl, ?_, ?_, ?_, rfl⟩
    · show (f.chunks.eraseIdx i).length + 1 = f.chunks.length
      rw [List.length_eraseIdx_of_lt hlt]; omega
    · intro j hj
      exact getElem?_eraseIdx_lt f.chunks i j hj (by omega)
    · intro j hj
      exact getElem?_eraseIdx_ge f.chunks i j hj (by omega)
    · show (f.chunks.set i c).length = f.chunks.length
      simp
    · show (f.chunks.set i c)[i]? = some c
      exact List.getElem?_set_self hlt
    · intro j hj
      show (f.chunks.set i c)[j]? = f.chunks[j]?
      exact List.getElem?_set_ne (Ne.symm hj)

/-- C8 (witness): a one-chunk container, removal at 5 (out of range) and
replacement at 0 (in range). -/
theorem c8_remove_replace_witness :
    ((CIEBIIFILE.new 20 20).push_chunk (Chunk.new 1 2 3)).remove_at_index 5 =
      (.error .NonExistentChunk,
        (CIEBIIFILE.new 20 20).push_chunk (Chunk.new 1 2 3)) ∧
    (((CIEBIIFILE.new 20 20).push_chunk (Chunk.new 1 2 3)).modify 0
        (Chunk.new 7 8 9)).2.chunks[0]? = some (Chunk.new 7 8 9) :=
  ⟨((c8_remove_replace ((CIEBIIFILE.new 20 20).push_chunk (Chunk.new 1 2 3)) 5
      (Chunk.new 7 8 9)).1 (by decide)).1,
    (((c8_remove_replace ((CIEBIIFILE.new 20 20).push_chunk (Chunk.new 1 2 3)) 0
      (Chunk.new 7 8 9)).2 (by decide)).2.2.2.2.1)⟩

/-- The cached-payload invariant: the `bytes` field is the concatenation
of the chunk encodings in order. -/
def PayloadInv (f : CIEBIIFILE) : Prop :=
  f.bytes = (f.chunks.map Chunk.as_bytes).flatten

/-- Records that decode pointwise to chunks flatten to the concatenation
of those chunks' encodings (for byte-valued records). -/
theorem forall₂_flatten (rs : List (List Nat)) (cs : List Chunk)
    (hfa : List.Forall₂ (fun r c => Chunk.tryFrom r = .ok c) rs cs)
    (hbytes : ∀ r ∈ rs, ∀ b ∈ r, b < 256) :
    rs.flatten = (cs.map Chunk.as_bytes).flatten := by
  induction hfa with
  | nil => rfl
  | cons h₁ h₂ ih =>
    simp only [List.flatten_cons, List.map_cons]
    rw [(Chunk.tryFrom_ok _ _ h₁ (hbytes _ (by simp))).1]
    rw [ih (fun r hr b hb => hbytes r (by simp [hr]) b hb)]

/-- C9: every constructor (`new`, `try_from_chunks`, byte decoding)
establishes the cached-payload invariant, and every mutator
(`push_chunk`, `remove_at_index`, `modify`) preserves it. -/
theorem c9_payload_invariant (x y : Nat) (cs : List Chunk) (bytes : List Nat)
    (f g : CIEBIIFILE) (c : Chunk) (i : Nat) :
    PayloadInv (CIEBIIFILE.new x y) ∧
    (CIEBIIFILE.try_from_chunks x y cs = .ok g → PayloadInv g) ∧
    ((∀ b ∈ bytes, b < 256) → CIEBIIFILE.tryFrom bytes = some (.ok g) →
      PayloadInv g) ∧
    (PayloadInv f → PayloadInv (f.push_chunk c)) ∧
    (PayloadInv f → PayloadInv (f.remove_at_index i).2) ∧
    (PayloadInv f → PayloadInv (f.modify i c).2) := by
  refine ⟨rfl, ?_, ?_, ?_, ?_, ?_⟩
  · intro hok
    rw [CIEBIIFILE.try_from_chunks] at hok
    by_cases hcond : (x * y) % 2 ^ 64 ≠ cs.length
    · rw [if_pos hcond] at hok; exact absurd hok (by simp)
    · rw [if_neg hcond] at hok
      have hg : g = ⟨cs, chunkPayload cs, Header.new x y⟩ := by
        simpa using hok.symm
      subst hg
      rfl
  · intro hbytes hok
    rw [CIEBIIFILE.tryFrom] at hok
    by_cases hlen : bytes.length < 30
    · rw [if_pos hlen] at hok; exact absurd hok (by simp)
    · rw [if_neg hlen] at hok
      cases hh : Header.tryFrom (bytes.take 30) with
      | error e => rw [hh] at hok; exact absurd hok (by simp)
      | ok hd =>
        rw [hh] at hok
        cases hdc : decodeChunks ((chunksOf5 bytes).drop 6) with
        | error e => rw [hdc] at hok; exact absurd hok (by simp)
        | ok cs' =>
          rw [hdc] at hok
          have hok2 : (if cs'.length ≠ (hd.x * hd.y) % 2 ^ 64 then
              (some (Except.error ChunkError.DimensionMismatch) :
                Option (Except ChunkError CIEBIIFILE))
            else some (Except.ok (⟨cs', bytes.drop 30, hd⟩ : CIEBIIFILE))) =
              some (Except.ok g) := hok
          by_cases hdim : cs'.length ≠ (hd.x * hd.y) % 2 ^ 64
          · rw [if_pos hdim] at hok2; exact absurd hok2 (by simp)
          · rw [if_neg hdim] at hok2
            have hg : g = ⟨cs', bytes.drop 30, hd⟩ := by simpa using hok2.symm
            subst hg
            show bytes.drop 30 = (cs'.map Chunk.as_bytes).flatten
            have hrec : (chunksOf5 bytes).drop 6 = chunksOf5 (bytes.drop 30) :=
              chunksOf5_drop 6 bytes (by omega)
            rw [hrec] at hdc
            have hfa := decodeChunks_forall₂ _ _ hdc
            rw [← forall₂_flatten _ _ hfa
              (fun r hr b hb =>
                hbytes b (List.drop_subset 30 bytes
                  (chunksOf5_mem (bytes.drop 30) r hr b hb)))]
            exact (chunksOf5_flatten (bytes.drop 30)).symm
  · intro hinv
    show f.bytes ++ c.as_bytes = ((f.chunks ++ [c]).map Chunk.as_bytes).flatten
    rw [List.map_append, List.flatten_append, hinv]
    simp
  · intro hinv
    rw [CIEBIIFILE.remove_at_index]
    by_cases hge : i ≥ f.chunks.length
    · rw [if_pos hge]; exact hinv
    · rw [if_neg hge]; rfl
  · intro hinv
    rw [CIEBIIFILE.modify]
    by_cases hge : i ≥ f.chunks.length
    · rw [if_pos hge]; exact hinv
    · rw [if_neg hge]; rfl

/-- C9 (witness): the invariant holds for a decoded bare header and for a
pushed chunk. -/
theorem c9_payload_invariant_witness :
    PayloadInv ⟨[], [], Header.new 0 0⟩ ∧
      PayloadInv ((CIEBIIFILE.new 2 2).push_chunk (Chunk.new 1 2 3)) :=
  ⟨(c9_payload_invariant 0 0 [] (Header.new 0 0).as_bytes (CIEBIIFILE.new 2 2)
      ⟨[], [], Header.new 0 0⟩ (Chunk.new 1 2 3) 0).2.2.1 (by decide) rfl,
    (c9_payload_invariant 0 0 [] (Header.new 0 0).as_bytes (CIEBIIFILE.new 2 2)
      ⟨[], [], Header.new 0 0⟩ (Chunk.new 1 2 3) 0).2.2.2.1 rfl⟩
